import Mathlib

/-!
# Verification of `trimLines` (src/functions/trimLines.ts)

Shallow embedding of the `trimLines` text-normalization routine.  Strings are
modelled as `List Char`; JavaScript's `String.prototype.split('\n')`,
`trim`, `trimLeft` and `' '.repeat` are modelled by executable Lean
functions below.  Since `' '.repeat(n)` throws a `RangeError` for negative
`n`, the embedding is `Option`-valued: `none` models a thrown exception.
-/

namespace TrimLines

/-- JavaScript whitespace predicate: the character class recognised by
`String.prototype.trim` (WhiteSpace ∪ LineTerminator per ECMA-262). -/
def isWS (c : Char) : Bool :=
  c.toNat = 0x09 || c.toNat = 0x0A || c.toNat = 0x0B || c.toNat = 0x0C ||
  c.toNat = 0x0D || c.toNat = 0x20 || c.toNat = 0xA0 || c.toNat = 0x1680 ||
  (0x2000 ≤ c.toNat && c.toNat ≤ 0x200A) ||
  c.toNat = 0x2028 || c.toNat = 0x2029 || c.toNat = 0x202F ||
  c.toNat = 0x205F || c.toNat = 0x3000 || c.toNat = 0xFEFF

/-- `str.trimLeft()`: drop leading whitespace. -/
def jsTrimLeft (l : List Char) : List Char := l.dropWhile isWS

/-- `str.trimRight()`: drop trailing whitespace. -/
def jsTrimRight (l : List Char) : List Char := (l.reverse.dropWhile isWS).reverse

/-- `str.trim()`: drop leading and trailing whitespace. -/
def jsTrim (l : List Char) : List Char := jsTrimRight (jsTrimLeft l)

/-- `str.split('\n')`: split on the newline character.  A string with `n`
newline characters yields `n + 1` (possibly empty) parts. -/
def splitNl : List Char → List (List Char)
  | [] => [[]]
  | c :: rest =>
    if c = '\n' then [] :: splitNl rest
    else
      match splitNl rest with
      | [] => [[c]]
      | h :: t => (c :: h) :: t

/-- `arr.join('\n')`. -/
def joinNl : List (List Char) → List Char
  | [] => []
  | [l] => l
  | l :: rest => l ++ '\n' :: joinNl rest

/-- `getStringLeftIndentLength(str)`: `str.length - str.trimLeft().length`,
the length of the leading-whitespace run. -/
def getStringLeftIndentLength (l : List Char) : Nat :=
  l.length - (jsTrimLeft l).length

/-- The `leastIndent` loop: fold over the lines, skipping blank lines and
keeping the minimum leading-indent length seen so far (`null` ↦ `none`). -/
def leastIndentAux (acc : Option Nat) : List (List Char) → Option Nat
  | [] => acc
  | l :: rest =>
    if (jsTrim l).length = 0 then leastIndentAux acc rest
    else
      match acc with
      | none => leastIndentAux (some (getStringLeftIndentLength l)) rest
      | some m =>
        leastIndentAux
          (some (if getStringLeftIndentLength l < m then getStringLeftIndentLength l else m))
          rest

/-- The value of `leastIndent` after the loop (given `trimLeftToLeastIndent`). -/
def leastIndent (lines : List (List Char)) : Option Nat :=
  leastIndentAux none lines

/-- Body of the `splitLines.map(...)` callback producing
`resultArrPreLeadTrail`: trim the line, and re-indent when
`newVal.length > 1 && trimLeftToLeastIndent && leastIndent !== null`.
JavaScript's `' '.repeat(totalIndent)` throws for a negative count, so the
case `indentOfThisItem < leastIndent` is modelled as `none`. -/
def perLine (tL : Bool) (li : Option Nat) (l : List Char) : Option (List Char) :=
  let newVal := jsTrim l
  if 1 < newVal.length && tL then
    match li with
    | some m =>
      if getStringLeftIndentLength l < m then none
      else some (List.replicate (getStringLeftIndentLength l - m) ' ' ++ newVal)
    | none => some newVal
  else some newVal

/-- The `.map` over all lines, with JS exception propagation (`none`). -/
def mapLines (tL : Bool) (li : Option Nat) : List (List Char) → Option (List (List Char))
  | [] => some []
  | l :: rest =>
    match perLine tL li l, mapLines tL li rest with
    | some v, some vs => some (v :: vs)
    | _, _ => none

/-- The bookkeeping performed inside the `.map` pass: the index of the first
line whose post-trim value is non-empty, and of the last such line. -/
def trackOccupied (idx : Nat) (first last : Option Nat) :
    List (List Char) → Option Nat × Option Nat
  | [] => (first, last)
  | v :: rest =>
    if v.length = 0 then trackOccupied (idx + 1) first last rest
    else
      trackOccupied (idx + 1)
        (match first with | none => some idx | some f => some f) (some idx) rest

/-- `firstOccupiedLineIdx` and `lastOccupiedLineIdx` over the mapped lines. -/
def occupiedIdxs (arr : List (List Char)) : Option Nat × Option Nat :=
  trackOccupied 0 none none arr

/-- The resolved configuration (all three options defaulted). -/
structure TrimConfig where
  trimLeftToLeastIndent : Bool
  trimVerticalStart : Bool
  trimVerticalEnd : Bool
  deriving DecidableEq, Repr

/-- The caller-supplied configuration object: three optional booleans. -/
structure TrimLinesOpts where
  trimLeftToLeastIndent : Option Bool
  trimVerticalStart : Option Bool
  trimVerticalEnd : Option Bool
  deriving DecidableEq, Repr

/-- Resolution of the optional `config` parameter:
`config?.field ?? true` for each of the three fields. -/
def resolveConfig (config : Option TrimLinesOpts) : TrimConfig where
  trimLeftToLeastIndent := (config.bind TrimLinesOpts.trimLeftToLeastIndent).getD true
  trimVerticalStart := (config.bind TrimLinesOpts.trimVerticalStart).getD true
  trimVerticalEnd := (config.bind TrimLinesOpts.trimVerticalEnd).getD true

/-- `trimLines(str, config)` on `List Char`, for a resolved configuration.
`none` models a thrown exception (which the source can only reach through
`' '.repeat` on a negative argument). -/
def trimLines (str : List Char) (cfg : TrimConfig) : Option (List Char) :=
  let splitLines := splitNl str
  let li : Option Nat :=
    if cfg.trimLeftToLeastIndent then leastIndent splitLines else none
  match mapLines cfg.trimLeftToLeastIndent li splitLines with
  | none => none
  | some resultArrPreLeadTrail =>
    match occupiedIdxs resultArrPreLeadTrail with
    | (some firstIdx, some lastIdx) =>
      let resultArr :=
        if cfg.trimVerticalStart && cfg.trimVerticalEnd then
          (resultArrPreLeadTrail.take (lastIdx + 1)).drop firstIdx
        else if cfg.trimVerticalStart then
          resultArrPreLeadTrail.drop firstIdx
        else if cfg.trimVerticalEnd then
          resultArrPreLeadTrail.take (lastIdx + 1)
        else resultArrPreLeadTrail
      some (joinNl resultArr)
    | _ => some []

/-- `trimLines` at the `String` level, taking the optional configuration
object exactly as the TypeScript signature does. -/
def trimLinesS (str : String) (config : Option TrimLinesOpts) : Option String :=
  (trimLines str.toList (resolveConfig config)).map List.asString

/-- Every entry of `resultArrPreLeadTrail` is either blank, or a run of
spaces followed by a non-empty fully-trimmed tail — with no re-added prefix
when the trimmed tail has length ≤ 1. -/
def CanonLine (v : List Char) : Prop :=
  v = [] ∨ ∃ k t, v = List.replicate k ' ' ++ t ∧ t ≠ [] ∧
    (∀ c, t.head? = some c → isWS c = false) ∧
    (∀ c, t.getLast? = some c → isWS c = false) ∧
    (t.length ≤ 1 → k = 0)

/-- Position `j` of `arr` holds a blank (empty) line. -/
def blankAt (arr : List (List Char)) (j : Nat) : Prop := arr[j]? = some []

/-- Position `j` of `arr` holds an occupied (non-empty) line. -/
def occAt (arr : List (List Char)) (j : Nat) : Prop :=
  ∃ v, arr[j]? = some v ∧ v ≠ []

/-- Offset between positions in the vertically-trimmed slice and positions
in `resultArrPreLeadTrail`. -/
def sliceOffset (cfg : TrimConfig) (f : Nat) : Nat :=
  if cfg.trimVerticalStart then f else 0

/-- Minimum of a list of naturals, `none` for the empty list. -/
def natMin? : List Nat → Option Nat
  | [] => none
  | a :: rest =>
    match natMin? rest with
    | none => some a
    | some b => some (Nat.min a b)

/-! ## Lemmas about `splitNl` and `joinNl` -/

theorem splitNl_ne_nil (s : List Char) : splitNl s ≠ [] := by
  induction s with
  | nil => simp [splitNl]
  | cons c rest ih =>
    simp only [splitNl]
    split
    · simp
    · split
      · simp
      · simp

theorem not_nl_mem_of_mem_splitNl {s l : List Char} (h : l ∈ splitNl s) : '\n' ∉ l := by
  induction s generalizing l with
  | nil =>
    simp only [splitNl, List.mem_singleton] at h
    subst h; simp
  | cons c rest ih =>
    simp only [splitNl] at h
    by_cases hc : c = '\n'
    · rw [if_pos hc] at h
      rcases List.mem_cons.mp h with h | h
      · subst h; simp
      · exact ih h
    · rw [if_neg hc] at h
      rcases heq : splitNl rest with _ | ⟨hd, tl⟩
      · exact absurd heq (splitNl_ne_nil rest)
      · rw [heq] at h
        rcases List.mem_cons.mp h with h | h
        · subst h
          intro hmem
          rcases List.mem_cons.mp hmem with h | h
          · exact hc h.symm
          · exact ih (heq ▸ List.mem_cons_self hd tl) h
        · exact ih (heq ▸ List.mem_cons_of_mem hd h)

theorem mem_of_mem_splitNl {s l : List Char} {c : Char}
    (hl : l ∈ splitNl s) (hc : c ∈ l) : c ∈ s := by
  induction s generalizing l with
  | nil =>
    simp only [splitNl, List.mem_singleton] at hl
    subst hl; simp at hc
  | cons a rest ih =>
    simp only [splitNl] at hl
    by_cases ha : a = '\n'
    · rw [if_pos ha] at hl
      rcases List.mem_cons.mp hl with h | h
      · subst h; simp at hc
      · exact List.mem_cons_of_mem a (ih h hc)
    · rw [if_neg ha] at hl
      rcases heq : splitNl rest with _ | ⟨hd, tl⟩
      · exact absurd heq (splitNl_ne_nil rest)
      · rw [heq] at hl
        rcases List.mem_cons.mp hl with h | h
        · subst h
          rcases List.mem_cons.mp hc with h | h
          · exact h ▸ List.mem_cons_self a rest
          · exact List.mem_cons_of_mem a
              (ih (heq ▸ List.mem_cons_self hd tl) h)
        · exact List.mem_cons_of_mem a
            (ih (heq ▸ List.mem_cons_of_mem hd h) hc)

theorem length_splitNl (s : List Char) :
    (splitNl s).length = s.count '\n' + 1 := by
  induction s with
  | nil => simp [splitNl]
  | cons c rest ih =>
    simp only [splitNl]
    by_cases hc : c = '\n'
    · subst hc
      rw [if_pos rfl, List.length_cons, ih, List.count_cons_self]
    · rw [if_neg hc]
      rcases heq : splitNl rest with _ | ⟨hd, tl⟩
      · exact absurd heq (splitNl_ne_nil rest)
      · have : c ≠ '\n' := hc
        rw [List.count_cons_of_ne (fun h => hc h.symm) rest] at *
        rw [← ih, heq]
        simp

theorem splitNl_of_not_mem {l : List Char} (h : '\n' ∉ l) : splitNl l = [l] := by
  induction l with
  | nil => rfl
  | cons c rest ih =>
    have hc : c ≠ '\n' := fun hc => h (hc ▸ List.mem_cons_self c rest)
    have hrest : '\n' ∉ rest := fun hm => h (List.mem_cons_of_mem c hm)
    simp only [splitNl, if_neg (fun hcc : c = '\n' => hc hcc), ih hrest]

theorem splitNl_append_nl {a b : List Char} (ha : '\n' ∉ a) :
    splitNl (a ++ '\n' :: b) = a :: splitNl b := by
  induction a with
  | nil => simp [splitNl]
  | cons c rest ih =>
    have hc : c ≠ '\n' := fun hc => ha (hc ▸ List.mem_cons_self c rest)
    have hrest : '\n' ∉ rest := fun hm => ha (List.mem_cons_of_mem c hm)
    simp only [List.cons_append, splitNl, if_neg (fun hcc : c = '\n' => hc hcc)]
    rw [show rest.append ('\n' :: b) = rest ++ '\n' :: b from rfl, ih hrest]

theorem splitNl_joinNl {ls : List (List Char)}
    (hnl : ∀ l ∈ ls, '\n' ∉ l) (hne : ls ≠ []) : splitNl (joinNl ls) = ls := by
  induction ls with
  | nil => exact absurd rfl hne
  | cons l rest ih =>
    cases rest with
    | nil =>
      simp only [joinNl]
      exact splitNl_of_not_mem (hnl l (List.mem_cons_self l []))
    | cons h t =>
      have : joinNl (l :: h :: t) = l ++ '\n' :: joinNl (h :: t) := rfl
      rw [this, splitNl_append_nl (hnl l (List.mem_cons_self l (h :: t)))]
      rw [ih (fun x hx => hnl x (List.mem_cons_of_mem l hx)) (by simp)]

theorem joinNl_nil_iff {ls : List (List Char)} (hne : ls ≠ []) :
    joinNl ls = [] ↔ ls = [[]] := by
  cases ls with
  | nil => exact absurd rfl hne
  | cons l rest =>
    cases rest with
    | nil => simp [joinNl]
    | cons h t =>
      constructor
      · intro hj
        have : joinNl (l :: h :: t) = l ++ '\n' :: joinNl (h :: t) := rfl
        rw [this] at hj
        simp at hj
      · intro hj; simp at hj

/-! ## Lemmas about `jsTrim` and `getStringLeftIndentLength` -/

theorem dropWhile_head_false {α : Type} {p : α → Bool} :
    ∀ {l : List α} {c : α} {t : List α}, l.dropWhile p = c :: t → p c = false := by
  intro l
  induction l with
  | nil => intro c t h; simp [List.dropWhile] at h
  | cons a rest ih =>
    intro c t h
    rw [List.dropWhile_cons] at h
    cases hp : p a with
    | true => rw [hp] at h; simp at h; exact ih h
    | false => rw [hp] at h; simp at h; rw [← h.1]; exact hp

theorem jsTrimLeft_suffix (l : List Char) : jsTrimLeft l <:+ l :=
  List.dropWhile_suffix isWS

theorem jsTrimRight_isPrefix (l : List Char) : jsTrimRight l <+: l := by
  have h : l.reverse.dropWhile isWS <:+ l.reverse := List.dropWhile_suffix isWS
  have h2 : (l.reverse.dropWhile isWS).reverse <+: l.reverse.reverse :=
    Iff.mpr List.reverse_prefix h
  rwa [List.reverse_reverse] at h2

theorem jsTrim_sublist (l : List Char) : List.Sublist (jsTrim l) l :=
  ((jsTrimRight_isPrefix (jsTrimLeft l)).sublist).trans (jsTrimLeft_suffix l).sublist

theorem jsTrim_eq_nil_iff {l : List Char} :
    jsTrim l = [] ↔ ∀ c ∈ l, isWS c = true := by
  constructor
  · intro h c hc
    unfold jsTrim jsTrimRight jsTrimLeft at h
    rw [List.reverse_eq_nil_iff] at h
    have h2 := List.dropWhile_eq_nil_iff.mp h
    have h3 : ∀ x ∈ l.dropWhile isWS, isWS x = true := fun x hx =>
      h2 x (List.mem_reverse.mpr hx)
    have hsplit : c ∈ l.takeWhile isWS ++ l.dropWhile isWS := by
      rw [List.takeWhile_append_dropWhile]; exact hc
    rcases List.mem_append.mp hsplit with h4 | h4
    · exact List.mem_takeWhile_imp h4
    · exact h3 c h4
  · intro h
    unfold jsTrim jsTrimRight jsTrimLeft
    rw [List.dropWhile_eq_nil_iff.mpr h]
    rfl

theorem jsTrim_head_not_ws {l : List Char} {c : Char} {t : List Char}
    (h : jsTrim l = c :: t) : isWS c = false := by
  have hpre : jsTrim l <+: jsTrimLeft l := jsTrimRight_isPrefix (jsTrimLeft l)
  rw [h] at hpre
  obtain ⟨r, hr⟩ := hpre
  have hdw : l.dropWhile isWS = c :: (t ++ r) := by
    show jsTrimLeft l = c :: (t ++ r)
    rw [← hr]
    exact List.cons_append c t r
  exact dropWhile_head_false hdw

theorem jsTrim_getLast_not_ws {l : List Char} {c : Char}
    (h : (jsTrim l).getLast? = some c) : isWS c = false := by
  unfold jsTrim jsTrimRight at h
  rw [List.getLast?_eq_head?_reverse, List.reverse_reverse] at h
  rcases heq : (jsTrimLeft l).reverse.dropWhile isWS with _ | ⟨a, t⟩
  · rw [heq] at h; simp at h
  · rw [heq] at h
    simp only [List.head?_cons, Option.some.injEq] at h
    rw [← h]
    exact dropWhile_head_false heq

theorem jsTrimLeft_eq_self {l : List Char}
    (h : ∀ c, l.head? = some c → isWS c = false) : jsTrimLeft l = l := by
  cases l with
  | nil => rfl
  | cons a t =>
    have ha := h a rfl
    unfold jsTrimLeft
    rw [List.dropWhile_cons]
    simp [ha]

theorem jsTrimRight_eq_self {l : List Char}
    (h : ∀ c, l.getLast? = some c → isWS c = false) : jsTrimRight l = l := by
  unfold jsTrimRight
  rcases heq : l.reverse with _ | ⟨a, t⟩
  · have hl : l = [] := List.reverse_eq_nil_iff.mp heq
    subst hl; rfl
  · have hlast : l.getLast? = some a := by
      rw [List.getLast?_eq_head?_reverse, heq]; rfl
    have ha := h a hlast
    rw [List.dropWhile_cons_of_neg (by simp [ha]), ← heq,
      List.reverse_reverse]

theorem jsTrim_eq_self {l : List Char}
    (hh : ∀ c, l.head? = some c → isWS c = false)
    (hl : ∀ c, l.getLast? = some c → isWS c = false) : jsTrim l = l := by
  unfold jsTrim
  rw [jsTrimLeft_eq_self hh, jsTrimRight_eq_self hl]

theorem jsTrimLeft_replicate_space (k : Nat) (t : List Char) :
    jsTrimLeft (List.replicate k ' ' ++ t) = jsTrimLeft t := by
  induction k with
  | zero => simp
  | succ k ih =>
    rw [List.replicate_succ, List.cons_append]
    unfold jsTrimLeft at *
    rw [List.dropWhile_cons]
    simp only [show isWS ' ' = true from by decide, if_true]
    exact ih

theorem jsTrim_replicate_space {t : List Char} (k : Nat)
    (hh : ∀ c, t.head? = some c → isWS c = false)
    (hl : ∀ c, t.getLast? = some c → isWS c = false) :
    jsTrim (List.replicate k ' ' ++ t) = t := by
  unfold jsTrim
  rw [show jsTrimLeft (List.replicate k ' ' ++ t) = jsTrimLeft t from
    jsTrimLeft_replicate_space k t, jsTrimLeft_eq_self hh, jsTrimRight_eq_self hl]

theorem indent_replicate_space {t : List Char} (k : Nat)
    (hh : ∀ c, t.head? = some c → isWS c = false) :
    getStringLeftIndentLength (List.replicate k ' ' ++ t) = k := by
  unfold getStringLeftIndentLength
  rw [jsTrimLeft_replicate_space, jsTrimLeft_eq_self hh]
  simp

/-! ## The canonical shape of post-trim lines -/

theorem jsTrim_head?_not_ws {l : List Char} {c : Char}
    (h : (jsTrim l).head? = some c) : isWS c = false := by
  rcases heq : jsTrim l with _ | ⟨a, t⟩
  · rw [heq] at h; simp at h
  · rw [heq] at h
    simp only [List.head?_cons, Option.some.injEq] at h
    exact h ▸ jsTrim_head_not_ws heq

theorem perLine_of_blank {tL : Bool} {li : Option Nat} {l : List Char}
    (h : jsTrim l = []) : perLine tL li l = some [] := by
  simp [perLine, h]

theorem perLine_of_short {tL : Bool} {li : Option Nat} {l : List Char}
    (h : (jsTrim l).length ≤ 1) : perLine tL li l = some (jsTrim l) := by
  have : ¬ 1 < (jsTrim l).length := by omega
  simp [perLine, this]

theorem perLine_not_tL {li : Option Nat} {l : List Char} :
    perLine false li l = some (jsTrim l) := by
  simp [perLine]

theorem perLine_reindent {l : List Char} {m : Nat}
    (hlen : 1 < (jsTrim l).length) (hm : m ≤ getStringLeftIndentLength l) :
    perLine true (some m) l =
      some (List.replicate (getStringLeftIndentLength l - m) ' ' ++ jsTrim l) := by
  have hnot : ¬ getStringLeftIndentLength l < m := by omega
  simp [perLine, hlen, hnot]

theorem perLine_fail {l : List Char} {m : Nat}
    (hlen : 1 < (jsTrim l).length) (hm : getStringLeftIndentLength l < m) :
    perLine true (some m) l = none := by
  simp [perLine, hlen, hm]

theorem perLine_li_none {tL : Bool} {l : List Char} :
    perLine tL none l = some (jsTrim l) := by
  simp [perLine]

theorem canon_of_perLine {tL : Bool} {li : Option Nat} {l v : List Char}
    (h : perLine tL li l = some v) : CanonLine v := by
  rcases heq : jsTrim l with _ | ⟨a, t⟩
  · rw [perLine_of_blank heq] at h
    exact Or.inl (by injection h with h; exact h.symm)
  · have hh : ∀ c, (a :: t).head? = some c → isWS c = false := by
      intro c hc
      exact jsTrim_head?_not_ws (l := l) (by rw [heq]; exact hc)
    have hl : ∀ c, (a :: t).getLast? = some c → isWS c = false := by
      intro c hc
      exact jsTrim_getLast_not_ws (l := l) (by rw [heq]; exact hc)
    have hne : (a :: t) ≠ [] := by simp
    by_cases hlen : 1 < (jsTrim l).length
    · cases tL with
      | false =>
        rw [perLine_not_tL] at h
        injection h with h
        exact Or.inr ⟨0, a :: t, by rw [← h, heq]; rfl, hne, hh, hl, fun _ => rfl⟩
      | true =>
        rcases li with _ | m
        · rw [perLine_li_none] at h
          injection h with h
          exact Or.inr ⟨0, a :: t, by rw [← h, heq]; rfl, hne, hh, hl, fun _ => rfl⟩
        · by_cases hlt : getStringLeftIndentLength l < m
          · rw [perLine_fail hlen hlt] at h
            exact absurd h (by simp)
          · rw [perLine_reindent hlen (by omega)] at h
            injection h with h
            refine Or.inr ⟨getStringLeftIndentLength l - m, a :: t, ?_, hne, hh, hl,
              fun hle => absurd hlen (by rw [heq]; omega)⟩
            rw [← h, heq]
    · rw [perLine_of_short (by omega)] at h
      injection h with h
      exact Or.inr ⟨0, a :: t, by rw [← h, heq]; rfl, hne, hh, hl, fun _ => rfl⟩

theorem perLine_canon_fix {v : List Char} (h : CanonLine v) :
    perLine true (some 0) v = some v := by
  rcases h with rfl | ⟨k, t, rfl, htne, hh, hl, hk1⟩
  · exact perLine_of_blank rfl
  · have htrim : jsTrim (List.replicate k ' ' ++ t) = t :=
      jsTrim_replicate_space k hh hl
    have hind : getStringLeftIndentLength (List.replicate k ' ' ++ t) = k :=
      indent_replicate_space k hh
    by_cases hlen : 1 < t.length
    · rw [perLine_reindent (by rw [htrim]; exact hlen) (by rw [hind]; exact Nat.zero_le k),
        htrim, hind]
      simp
    · have hk := hk1 (by omega)
      subst hk
      rw [perLine_of_short (by rw [htrim]; omega), htrim]
      simp

theorem canonLine_getLast_not_ws {v : List Char} (h : CanonLine v) {c : Char}
    (hc : v.getLast? = some c) : isWS c = false := by
  rcases h with rfl | ⟨k, t, rfl, htne, hh, hl, _⟩
  · simp at hc
  · rw [List.getLast?_append] at hc
    rcases heq : t.getLast? with _ | a
    · exact absurd (List.getLast?_eq_none_iff.mp heq) htne
    · rw [heq, Option.or_some] at hc
      injection hc with hc
      exact hl c (by rw [heq, hc])

/-! ## Lemmas about `leastIndent` -/

theorem leastIndentAux_eq_none_iff {lines : List (List Char)} :
    ∀ {acc : Option Nat},
      leastIndentAux acc lines = none ↔ acc = none ∧ ∀ l ∈ lines, jsTrim l = [] := by
  induction lines with
  | nil => intro acc; simp [leastIndentAux]
  | cons l rest ih =>
    intro acc
    simp only [leastIndentAux]
    by_cases hb : (jsTrim l).length = 0
    · rw [if_pos hb]
      have hbl : jsTrim l = [] := List.length_eq_zero.mp hb
      rw [ih]
      constructor
      · rintro ⟨h1, h2⟩
        refine ⟨h1, ?_⟩
        intro x hx
        rcases List.mem_cons.mp hx with rfl | hx
        · exact hbl
        · exact h2 x hx
      · rintro ⟨h1, h2⟩
        exact ⟨h1, fun x hx => h2 x (List.mem_cons_of_mem l hx)⟩
    · rw [if_neg hb]
      have hbl : jsTrim l ≠ [] := fun hh => hb (by rw [hh]; rfl)
      cases acc with
      | none =>
        constructor
        · intro hcontra
          rw [ih] at hcontra
          exact absurd hcontra.1 (by simp)
        · rintro ⟨_, h2⟩
          exact absurd (h2 l (List.mem_cons_self l rest)) hbl
      | some m =>
        constructor
        · intro hcontra
          rw [ih] at hcontra
          exact absurd hcontra.1 (by simp)
        · rintro ⟨h1, _⟩
          exact absurd h1 (by simp)

theorem leastIndent_eq_none_iff {lines : List (List Char)} :
    leastIndent lines = none ↔ ∀ l ∈ lines, jsTrim l = [] := by
  unfold leastIndent
  rw [leastIndentAux_eq_none_iff]
  simp

theorem leastIndentAux_lb {lines : List (List Char)} :
    ∀ {acc : Option Nat} {m : Nat}, leastIndentAux acc lines = some m →
      (∀ a, acc = some a → m ≤ a) ∧
      (∀ l ∈ lines, jsTrim l ≠ [] → m ≤ getStringLeftIndentLength l) := by
  induction lines with
  | nil =>
    intro acc m h
    simp only [leastIndentAux] at h
    refine ⟨fun a ha => ?_, by simp⟩
    rw [h] at ha
    injection ha with ha
    exact Nat.le_of_eq ha
  | cons l rest ih =>
    intro acc m h
    simp only [leastIndentAux] at h
    by_cases hb : (jsTrim l).length = 0
    · rw [if_pos hb] at h
      have hbl : jsTrim l = [] := List.length_eq_zero.mp hb
      obtain ⟨h1, h2⟩ := ih h
      refine ⟨h1, ?_⟩
      intro x hx hne
      rcases List.mem_cons.mp hx with rfl | hx
      · exact absurd hbl hne
      · exact h2 x hx hne
    · rw [if_neg hb] at h
      cases acc with
      | none =>
        obtain ⟨h1, h2⟩ := ih h
        have hm := h1 _ rfl
        refine ⟨fun a ha => by simp at ha, ?_⟩
        intro x hx hne
        rcases List.mem_cons.mp hx with rfl | hx
        · exact hm
        · exact h2 x hx hne
      | some m0 =>
        obtain ⟨h1, h2⟩ := ih h
        have hm := h1 _ rfl
        have hmin : m ≤ getStringLeftIndentLength l ∧ m ≤ m0 := by
          by_cases hi : getStringLeftIndentLength l < m0
          · rw [if_pos hi] at hm
            omega
          · rw [if_neg hi] at hm
            omega
        refine ⟨fun a ha => ?_, ?_⟩
        · injection ha with ha
          rw [← ha]
          exact hmin.2
        · intro x hx hne
          rcases List.mem_cons.mp hx with rfl | hx
          · exact hmin.1
          · exact h2 x hx hne

theorem leastIndentAux_mem {lines : List (List Char)} :
    ∀ {acc : Option Nat} {m : Nat}, leastIndentAux acc lines = some m →
      acc = some m ∨
        ∃ l, l ∈ lines ∧ jsTrim l ≠ [] ∧ getStringLeftIndentLength l = m := by
  induction lines with
  | nil =>
    intro acc m h
    simp only [leastIndentAux] at h
    exact Or.inl h
  | cons l rest ih =>
    intro acc m h
    simp only [leastIndentAux] at h
    by_cases hb : (jsTrim l).length = 0
    · rw [if_pos hb] at h
      rcases ih h with h1 | ⟨x, hx, hne, hi⟩
      · exact Or.inl h1
      · exact Or.inr ⟨x, List.mem_cons_of_mem l hx, hne, hi⟩
    · rw [if_neg hb] at h
      have hbl : jsTrim l ≠ [] := fun hh => hb (by rw [hh]; rfl)
      cases acc with
      | none =>
        rcases ih h with h1 | ⟨x, hx, hne, hi⟩
        · injection h1 with h1
          exact Or.inr ⟨l, List.mem_cons_self l rest, hbl, h1⟩
        · exact Or.inr ⟨x, List.mem_cons_of_mem l hx, hne, hi⟩
      | some m0 =>
        rcases ih h with h1 | ⟨x, hx, hne, hi⟩
        · injection h1 with h1
          by_cases hi : getStringLeftIndentLength l < m0
          · rw [if_pos hi] at h1
            exact Or.inr ⟨l, List.mem_cons_self l rest, hbl, h1⟩
          · rw [if_neg hi] at h1
            exact Or.inl (by rw [h1])
        · exact Or.inr ⟨x, List.mem_cons_of_mem l hx, hne, hi⟩

theorem leastIndent_lb {lines : List (List Char)} {m : Nat}
    (h : leastIndent lines = some m) :
    ∀ l ∈ lines, jsTrim l ≠ [] → m ≤ getStringLeftIndentLength l :=
  (leastIndentAux_lb h).2

theorem leastIndent_mem {lines : List (List Char)} {m : Nat}
    (h : leastIndent lines = some m) :
    ∃ l, l ∈ lines ∧ jsTrim l ≠ [] ∧ getStringLeftIndentLength l = m := by
  rcases leastIndentAux_mem h with h1 | h2
  · exact absurd h1 (by simp)
  · exact h2

theorem leastIndent_eq_zero {lines : List (List Char)}
    (h : ∃ l, l ∈ lines ∧ jsTrim l ≠ [] ∧ getStringLeftIndentLength l = 0) :
    leastIndent lines = some 0 := by
  obtain ⟨l, hl, hne, hz⟩ := h
  rcases heq : leastIndent lines with _ | m
  · rw [leastIndent_eq_none_iff] at heq
    exact absurd (heq l hl) hne
  · have hle := leastIndent_lb heq l hl hne
    rw [hz] at hle
    rw [Nat.le_zero.mp hle]

/-! ## Lemmas about `mapLines` -/

theorem mapLines_eq_some {tL : Bool} {li : Option Nat} {lines : List (List Char)}
    (h : ∀ l ∈ lines, perLine tL li l ≠ none) :
    ∃ arr, mapLines tL li lines = some arr := by
  induction lines with
  | nil => exact ⟨[], rfl⟩
  | cons l rest ih =>
    obtain ⟨arr, harr⟩ := ih (fun x hx => h x (List.mem_cons_of_mem l hx))
    rcases hv : perLine tL li l with _ | v
    · exact absurd hv (h l (List.mem_cons_self l rest))
    · exact ⟨v :: arr, by simp [mapLines, hv, harr]⟩

theorem mapLines_length {tL : Bool} {li : Option Nat} :
    ∀ {lines arr : List (List Char)},
      mapLines tL li lines = some arr → arr.length = lines.length := by
  intro lines
  induction lines with
  | nil =>
    intro arr h
    simp only [mapLines] at h
    injection h with h
    rw [← h]
  | cons l rest ih =>
    intro arr h
    simp only [mapLines] at h
    rcases hv : perLine tL li l with _ | v <;> rw [hv] at h
    · simp at h
    · rcases hr : mapLines tL li rest with _ | vs <;> rw [hr] at h
      · simp at h
      · injection h with h
        rw [← h, List.length_cons, List.length_cons, ih hr]

theorem mapLines_getElem? {tL : Bool} {li : Option Nat} :
    ∀ {lines arr : List (List Char)}, mapLines tL li lines = some arr →
      ∀ {i : Nat} {l : List Char}, lines[i]? = some l →
        ∃ v, arr[i]? = some v ∧ perLine tL li l = some v := by
  intro lines
  induction lines with
  | nil => intro arr _ i l h; simp at h
  | cons x rest ih =>
    intro arr h i l hl
    simp only [mapLines] at h
    rcases hv : perLine tL li x with _ | v <;> rw [hv] at h
    · simp at h
    · rcases hr : mapLines tL li rest with _ | vs <;> rw [hr] at h
      · simp at h
      · injection h with h
        subst h
        cases i with
        | zero =>
          simp only [List.getElem?_cons_zero, Option.some.injEq] at hl
          exact ⟨v, by simp, by rw [← hl]; exact hv⟩
        | succ i =>
          simp only [List.getElem?_cons_succ] at hl ⊢
          exact ih hr hl

theorem mapLines_mem {tL : Bool} {li : Option Nat} :
    ∀ {lines arr : List (List Char)}, mapLines tL li lines = some arr →
      ∀ v ∈ arr, ∃ l ∈ lines, perLine tL li l = some v := by
  intro lines
  induction lines with
  | nil =>
    intro arr h v hv
    simp only [mapLines] at h
    injection h with h
    rw [← h] at hv
    simp at hv
  | cons x rest ih =>
    intro arr h v hv
    simp only [mapLines] at h
    rcases hx : perLine tL li x with _ | w <;> rw [hx] at h
    · simp at h
    · rcases hr : mapLines tL li rest with _ | vs <;> rw [hr] at h
      · simp at h
      · injection h with h
        rw [← h] at hv
        rcases List.mem_cons.mp hv with rfl | hv
        · exact ⟨x, List.mem_cons_self x rest, hx⟩
        · obtain ⟨l, hl, hpl⟩ := ih hr v hv
          exact ⟨l, List.mem_cons_of_mem x hl, hpl⟩

theorem mapLines_fix {tL : Bool} {li : Option Nat} :
    ∀ {arr : List (List Char)}, (∀ v ∈ arr, perLine tL li v = some v) →
      mapLines tL li arr = some arr := by
  intro arr
  induction arr with
  | nil => intro _; rfl
  | cons v rest ih =>
    intro h
    simp only [mapLines, h v (List.mem_cons_self v rest),
      ih (fun x hx => h x (List.mem_cons_of_mem v hx))]

/-! ## Lemmas about `trackOccupied` -/

theorem blankAt_of_all {arr : List (List Char)} {j : Nat}
    (h : ∀ v ∈ arr, v = []) (hj : j < arr.length) : blankAt arr j := by
  unfold blankAt
  rw [List.getElem?_eq_getElem hj]
  exact congrArg some (h _ (List.getElem_mem hj))

theorem trackOccupied_some_spec :
    ∀ (arr : List (List Char)) (idx f d : Nat),
      (trackOccupied idx (some f) (some d) arr = (some f, some d) ∧
        ∀ v ∈ arr, v = []) ∨
      (∃ l, trackOccupied idx (some f) (some d) arr = (some f, some (idx + l)) ∧
        l < arr.length ∧ occAt arr l ∧
        ∀ j, l < j → j < arr.length → blankAt arr j) := by
  intro arr
  induction arr with
  | nil => intro idx f d; exact Or.inl ⟨rfl, by simp⟩
  | cons v rest ih =>
    intro idx f d
    by_cases hv : v.length = 0
    · have hvnil : v = [] := List.length_eq_zero.mp hv
      have hstep : trackOccupied idx (some f) (some d) (v :: rest)
          = trackOccupied (idx + 1) (some f) (some d) rest := by
        simp [trackOccupied, hv]
      rcases ih (idx + 1) f d with ⟨h1, h2⟩ | ⟨l, h1, h2, h3, h4⟩
      · refine Or.inl ⟨by rw [hstep, h1], ?_⟩
        intro x hx
        rcases List.mem_cons.mp hx with rfl | hx
        · exact hvnil
        · exact h2 x hx
      · refine Or.inr ⟨l + 1, ?_, by simpa using Nat.succ_lt_succ h2, ?_, ?_⟩
        · rw [hstep, h1]
          have harith : idx + 1 + l = idx + (l + 1) := by omega
          rw [harith]
        · obtain ⟨w, hw1, hw2⟩ := h3
          exact ⟨w, by simpa using hw1, hw2⟩
        · intro j hj1 hj2
          cases j with
          | zero => omega
          | succ j =>
            have hb := h4 j (by omega) (by simpa using hj2)
            unfold blankAt at hb ⊢
            simpa using hb
    · have hstep : trackOccupied idx (some f) (some d) (v :: rest)
          = trackOccupied (idx + 1) (some f) (some idx) rest := by
        simp [trackOccupied, hv]
      have hvne : v ≠ [] := fun hh => hv (by rw [hh]; rfl)
      rcases ih (idx + 1) f idx with ⟨h1, h2⟩ | ⟨l, h1, h2, h3, h4⟩
      · refine Or.inr ⟨0, by rw [hstep, h1]; rfl, by simp, ⟨v, by simp, hvne⟩, ?_⟩
        intro j hj1 hj2
        cases j with
        | zero => omega
        | succ j =>
          have hb := blankAt_of_all h2 (show j < rest.length by simpa using hj2)
          unfold blankAt at hb ⊢
          simpa using hb
      · refine Or.inr ⟨l + 1, ?_, by simpa using Nat.succ_lt_succ h2, ?_, ?_⟩
        · rw [hstep, h1]
          have harith : idx + 1 + l = idx + (l + 1) := by omega
          rw [harith]
        · obtain ⟨w, hw1, hw2⟩ := h3
          exact ⟨w, by simpa using hw1, hw2⟩
        · intro j hj1 hj2
          cases j with
          | zero => omega
          | succ j =>
            have hb := h4 j (by omega) (by simpa using hj2)
            unfold blankAt at hb ⊢
            simpa using hb

theorem trackOccupied_spec :
    ∀ (arr : List (List Char)) (idx : Nat),
      (trackOccupied idx none none arr = (none, none) ∧ ∀ v ∈ arr, v = []) ∨
      (∃ f l, trackOccupied idx none none arr = (some (idx + f), some (idx + l)) ∧
        f ≤ l ∧ l < arr.length ∧ occAt arr f ∧ occAt arr l ∧
        (∀ j, j < f → blankAt arr j) ∧
        (∀ j, l < j → j < arr.length → blankAt arr j)) := by
  intro arr
  induction arr with
  | nil => intro idx; exact Or.inl ⟨rfl, by simp⟩
  | cons v rest ih =>
    intro idx
    by_cases hv : v.length = 0
    · have hvnil : v = [] := List.length_eq_zero.mp hv
      have hstep : trackOccupied idx none none (v :: rest)
          = trackOccupied (idx + 1) none none rest := by
        simp [trackOccupied, hv]
      rcases ih (idx + 1) with ⟨h1, h2⟩ | ⟨f, l, h1, h2, h3, h4, h5, h6, h7⟩
      · refine Or.inl ⟨by rw [hstep, h1], ?_⟩
        intro x hx
        rcases List.mem_cons.mp hx with rfl | hx
        · exact hvnil
        · exact h2 x hx
      · refine Or.inr ⟨f + 1, l + 1, ?_, by omega,
          by simpa using Nat.succ_lt_succ h3, ?_, ?_, ?_, ?_⟩
        · rw [hstep, h1]
          have ha1 : idx + 1 + f = idx + (f + 1) := by omega
          have ha2 : idx + 1 + l = idx + (l + 1) := by omega
          rw [ha1, ha2]
        · obtain ⟨w, hw1, hw2⟩ := h4
          exact ⟨w, by simpa using hw1, hw2⟩
        · obtain ⟨w, hw1, hw2⟩ := h5
          exact ⟨w, by simpa using hw1, hw2⟩
        · intro j hj
          cases j with
          | zero => exact (by unfold blankAt; rw [List.getElem?_cons_zero, hvnil])
          | succ j =>
            have hb := h6 j (by omega)
            unfold blankAt at hb ⊢
            simpa using hb
        · intro j hj1 hj2
          cases j with
          | zero => omega
          | succ j =>
            have hb := h7 j (by omega) (by simpa using hj2)
            unfold blankAt at hb ⊢
            simpa using hb
    · have hstep : trackOccupied idx none none (v :: rest)
          = trackOccupied (idx + 1) (some idx) (some idx) rest := by
        simp [trackOccupied, hv]
      have hvne : v ≠ [] := fun hh => hv (by rw [hh]; rfl)
      rcases trackOccupied_some_spec rest (idx + 1) idx idx with
        ⟨h1, h2⟩ | ⟨l, h1, h2, h3, h4⟩
      · refine Or.inr ⟨0, 0, by rw [hstep, h1]; simp, Nat.le_refl 0, by simp,
          ⟨v, by simp, hvne⟩, ⟨v, by simp, hvne⟩, by omega, ?_⟩
        intro j hj1 hj2
        cases j with
        | zero => omega
        | succ j =>
          have hb := blankAt_of_all h2 (show j < rest.length by simpa using hj2)
          unfold blankAt at hb ⊢
          simpa using hb
      · refine Or.inr ⟨0, l + 1, ?_, by omega,
          by simpa using Nat.succ_lt_succ h2, ⟨v, by simp, hvne⟩, ?_, by omega, ?_⟩
        · rw [hstep, h1]
          have ha : idx + 1 + l = idx + (l + 1) := by omega
          rw [ha]
          simp
        · obtain ⟨w, hw1, hw2⟩ := h3
          exact ⟨w, by simpa using hw1, hw2⟩
        · intro j hj1 hj2
          cases j with
          | zero => omega
          | succ j =>
            have hb := h4 j (by omega) (by simpa using hj2)
            unfold blankAt at hb ⊢
            simpa using hb

theorem occupiedIdxs_spec (arr : List (List Char)) :
    (occupiedIdxs arr = (none, none) ∧ ∀ v ∈ arr, v = []) ∨
    (∃ f l, occupiedIdxs arr = (some f, some l) ∧ f ≤ l ∧ l < arr.length ∧
      occAt arr f ∧ occAt arr l ∧ (∀ j, j < f → blankAt arr j) ∧
      (∀ j, l < j → j < arr.length → blankAt arr j)) := by
  rcases trackOccupied_spec arr 0 with h | ⟨f, l, h1, h2, h3, h4, h5, h6, h7⟩
  · exact Or.inl h
  · exact Or.inr ⟨f, l, by simpa using h1, h2, h3, h4, h5, h6, h7⟩

/-! ## Assembly lemmas for the main path of `trimLines` -/

theorem jsTrim_idem (l : List Char) : jsTrim (jsTrim l) = jsTrim l :=
  jsTrim_eq_self (fun _ hc => jsTrim_head?_not_ws hc)
    (fun _ hc => jsTrim_getLast_not_ws hc)

theorem indent_of_head_not_ws {v : List Char}
    (h : ∀ c, v.head? = some c → isWS c = false) :
    getStringLeftIndentLength v = 0 := by
  unfold getStringLeftIndentLength
  rw [jsTrimLeft_eq_self h, Nat.sub_self]

theorem perLine_shape {tL : Bool} {li : Option Nat} {l v : List Char}
    (h : perLine tL li l = some v) :
    v = jsTrim l ∨ ∃ k, v = List.replicate k ' ' ++ jsTrim l := by
  by_cases hlen : 1 < (jsTrim l).length
  · cases tL with
    | false =>
      rw [perLine_not_tL] at h
      exact Or.inl (by injection h with h; exact h.symm)
    | true =>
      rcases li with _ | m
      · rw [perLine_li_none] at h
        exact Or.inl (by injection h with h; exact h.symm)
      · by_cases hlt : getStringLeftIndentLength l < m
        · rw [perLine_fail hlen hlt] at h
          exact absurd h (by simp)
        · rw [perLine_reindent hlen (by omega)] at h
          exact Or.inr ⟨_, by injection h with h; exact h.symm⟩
  · rw [perLine_of_short (by omega)] at h
    exact Or.inl (by injection h with h; exact h.symm)

theorem perLine_no_nl {tL : Bool} {li : Option Nat} {l v : List Char}
    (h : perLine tL li l = some v) (hnl : '\n' ∉ l) : '\n' ∉ v := by
  have htr : '\n' ∉ jsTrim l := fun hm => hnl ((jsTrim_sublist l).subset hm)
  rcases perLine_shape h with rfl | ⟨k, rfl⟩
  · exact htr
  · intro hm
    rcases List.mem_append.mp hm with hm | hm
    · exact absurd (List.eq_of_mem_replicate hm) (by decide)
    · exact htr hm

theorem perLine_blank_iff {tL : Bool} {li : Option Nat} {l v : List Char}
    (h : perLine tL li l = some v) : v = [] ↔ jsTrim l = [] := by
  constructor
  · intro hv
    subst hv
    rcases perLine_shape h with h1 | ⟨k, h1⟩
    · exact h1.symm
    · rcases List.append_eq_nil.mp h1.symm with ⟨_, h2⟩
      exact h2
  · intro hv
    rw [perLine_of_blank hv] at h
    injection h with h
    exact h.symm

theorem perLine_ne_none {tL : Bool} {lines : List (List Char)} {l : List Char}
    (hl : l ∈ lines) :
    ∀ {li : Option Nat}, (li = none ∨ li = leastIndent lines) →
      perLine tL li l ≠ none := by
  intro li hli
  by_cases hlen : 1 < (jsTrim l).length
  · cases tL with
    | false => rw [perLine_not_tL]; simp
    | true =>
      rcases li with _ | m
      · rw [perLine_li_none]; simp
      · rcases hli with h | h
        · exact absurd h (by simp)
        · have hne : jsTrim l ≠ [] := fun hh => by
            rw [hh] at hlen; simp at hlen
          have hm := leastIndent_lb h.symm l hl hne
          rw [perLine_reindent hlen hm]
          simp
  · rw [perLine_of_short (by omega)]
    simp

theorem trimLines_run (s : List Char) (cfg : TrimConfig) :
    ∃ arr, mapLines cfg.trimLeftToLeastIndent
        (if cfg.trimLeftToLeastIndent then leastIndent (splitNl s) else none)
        (splitNl s) = some arr ∧
      (((∀ v ∈ arr, v = []) ∧ trimLines s cfg = some []) ∨
       (∃ f lastI, occupiedIdxs arr = (some f, some lastI) ∧
          f ≤ lastI ∧ lastI < arr.length ∧ occAt arr f ∧ occAt arr lastI ∧
          (∀ j, j < f → blankAt arr j) ∧
          (∀ j, lastI < j → j < arr.length → blankAt arr j) ∧
          trimLines s cfg = some (joinNl (
            if cfg.trimVerticalStart && cfg.trimVerticalEnd then
              (arr.take (lastI + 1)).drop f
            else if cfg.trimVerticalStart then arr.drop f
            else if cfg.trimVerticalEnd then arr.take (lastI + 1)
            else arr)))) := by
  have hnn : ∀ l ∈ splitNl s,
      perLine cfg.trimLeftToLeastIndent
        (if cfg.trimLeftToLeastIndent then leastIndent (splitNl s) else none) l
        ≠ none := by
    intro l hl
    apply perLine_ne_none hl
    by_cases h : cfg.trimLeftToLeastIndent
    · rw [if_pos h]; exact Or.inr rfl
    · rw [if_neg h]; exact Or.inl rfl
  obtain ⟨arr, harr⟩ := mapLines_eq_some hnn
  refine ⟨arr, harr, ?_⟩
  rcases occupiedIdxs_spec arr with ⟨hocc, hall⟩ | ⟨f, l, hocc, h2, h3, h4, h5, h6, h7⟩
  · refine Or.inl ⟨hall, ?_⟩
    unfold trimLines
    simp only [harr, hocc]
  · refine Or.inr ⟨f, l, hocc, h2, h3, h4, h5, h6, h7, ?_⟩
    unfold trimLines
    simp only [harr, hocc]

theorem mem_of_getElem?' {α : Type} {l : List α} {i : Nat} {a : α}
    (h : l[i]? = some a) : a ∈ l := by
  obtain ⟨hlt, he⟩ := List.getElem?_eq_some_iff.mp h
  exact he ▸ List.getElem_mem hlt

theorem getElem?_take_some {α : Type} {l : List α} {n m : Nat} {a : α}
    (h : (l.take n)[m]? = some a) : l[m]? = some a := by
  rw [List.getElem?_take] at h
  by_cases hm : m < n
  · rwa [if_pos hm] at h
  · rw [if_neg hm] at h
    exact absurd h (by simp)

theorem trimLines_total (s : List Char) (cfg : TrimConfig) :
    ∃ out, trimLines s cfg = some out := by
  obtain ⟨arr, _, hrest⟩ := trimLines_run s cfg
  rcases hrest with ⟨_, h⟩ | ⟨f, lastI, _, _, _, _, _, _, _, h⟩
  · exact ⟨[], h⟩
  · exact ⟨_, h⟩

/-- The slice chosen by the vertical-trim options: it is non-empty, every
entry (at the appropriate offset) comes from `arr`, and every `arr` position
between the occupied markers is kept. -/
theorem resultArr_facts {cfg : TrimConfig} {arr : List (List Char)} {f lastI : Nat}
    {res : List (List Char)}
    (hres : res =
      (if cfg.trimVerticalStart && cfg.trimVerticalEnd then
        (arr.take (lastI + 1)).drop f
      else if cfg.trimVerticalStart then arr.drop f
      else if cfg.trimVerticalEnd then arr.take (lastI + 1)
      else arr))
    (hfl : f ≤ lastI) (hlen : lastI < arr.length) :
    res ≠ [] ∧
    (∀ j x, res[j]? = some x → arr[sliceOffset cfg f + j]? = some x) ∧
    (∀ i, f ≤ i → i ≤ lastI → res[i - sliceOffset cfg f]? = arr[i]?) := by
  cases hvs : cfg.trimVerticalStart <;> cases hve : cfg.trimVerticalEnd <;>
    rw [hvs, hve] at hres <;> simp only [Bool.and_self, Bool.false_and,
      Bool.true_and, Bool.and_false, Bool.and_true, if_true, if_false,
      Bool.false_eq_true, Bool.true_eq_false] at hres <;>
    simp only [sliceOffset, hvs, if_true, if_false, Bool.false_eq_true,
      Bool.true_eq_false] <;> subst hres
  · -- trimVerticalStart = false, trimVerticalEnd = false
    refine ⟨?_, ?_, ?_⟩
    · intro hn
      rw [hn] at hlen
      simp at hlen
    · intro j x h
      simpa using h
    · intro i _ _
      simp
  · -- trimVerticalStart = false, trimVerticalEnd = true
    refine ⟨?_, ?_, ?_⟩
    · intro hn
      have hlen2 : (arr.take (lastI + 1)).length = 0 := by rw [hn]; rfl
      rw [List.length_take] at hlen2
      omega
    · intro j x h
      simpa using getElem?_take_some h
    · intro i _ hil
      simp only [Nat.sub_zero]
      exact List.getElem?_take_of_lt (by omega)
  · -- trimVerticalStart = true, trimVerticalEnd = false
    refine ⟨?_, ?_, ?_⟩
    · intro hn
      have hlen2 : (arr.drop f).length = 0 := by rw [hn]; rfl
      rw [List.length_drop] at hlen2
      omega
    · intro j x h
      rwa [List.getElem?_drop] at h
    · intro i hif _
      rw [List.getElem?_drop]
      have harith : f + (i - f) = i := by omega
      rw [harith]
  · -- trimVerticalStart = true, trimVerticalEnd = true
    refine ⟨?_, ?_, ?_⟩
    · intro hn
      have hlen2 : ((arr.take (lastI + 1)).drop f).length = 0 := by rw [hn]; rfl
      rw [List.length_drop, List.length_take] at hlen2
      omega
    · intro j x h
      rw [List.getElem?_drop] at h
      exact getElem?_take_some h
    · intro i hif hil
      rw [List.getElem?_drop]
      have harith : f + (i - f) = i := by omega
      rw [harith]
      exact List.getElem?_take_of_lt (by omega)

theorem resultArr_mem_arr {cfg : TrimConfig} {arr : List (List Char)} {f lastI : Nat}
    {res : List (List Char)}
    (hres : res =
      (if cfg.trimVerticalStart && cfg.trimVerticalEnd then
        (arr.take (lastI + 1)).drop f
      else if cfg.trimVerticalStart then arr.drop f
      else if cfg.trimVerticalEnd then arr.take (lastI + 1)
      else arr)) :
    ∀ v ∈ res, v ∈ arr := by
  intro v hv
  rw [hres] at hv
  split at hv
  · exact List.mem_of_mem_take (List.mem_of_mem_drop hv)
  · split at hv
    · exact List.mem_of_mem_drop hv
    · split at hv
      · exact List.mem_of_mem_take hv
      · exact hv

theorem natMin?_eq_zero_of_mem {xs : List Nat} (h : 0 ∈ xs) :
    natMin? xs = some 0 := by
  induction xs with
  | nil => simp at h
  | cons a rest ih =>
    rcases List.mem_cons.mp h with ha | h
    · rw [← ha]
      rcases hmr : natMin? rest with _ | b
      · simp [natMin?, hmr]
      · simp [natMin?, hmr, Nat.zero_min]
    · simp only [natMin?, ih h, Nat.min_zero]

theorem occAt_not_blankAt {arr : List (List Char)} {j : Nat}
    (h1 : occAt arr j) (h2 : blankAt arr j) : False := by
  obtain ⟨v, hv, hne⟩ := h1
  unfold blankAt at h2
  rw [hv] at h2
  injection h2 with h2
  exact hne h2

/-- If the mapped array has an occupied entry, then some entry of the mapped
array is non-blank and sits at leading-indent 0 (the image of a line that
attains the least indent). -/
theorem exists_zero_indent_entry {s : List Char} {arr : List (List Char)} {j : Nat}
    (harr : mapLines true (leastIndent (splitNl s)) (splitNl s) = some arr)
    (hocc : occAt arr j) :
    ∃ (i : Nat) (v : List Char), arr[i]? = some v ∧ v ≠ [] ∧ jsTrim v ≠ [] ∧
      getStringLeftIndentLength v = 0 := by
  obtain ⟨v, hvj, hvne⟩ := hocc
  obtain ⟨l, hl, hpl⟩ := mapLines_mem harr v (mem_of_getElem?' hvj)
  have hlne : jsTrim l ≠ [] := fun hh => hvne ((perLine_blank_iff hpl).mpr hh)
  rcases hm : leastIndent (splitNl s) with _ | m
  · rw [leastIndent_eq_none_iff] at hm
    exact absurd (hm l hl) hlne
  · obtain ⟨l0, hl0, hl0ne, hl0ind⟩ := leastIndent_mem hm
    obtain ⟨i0, hi0⟩ := List.getElem?_of_mem hl0
    rw [hm] at harr
    obtain ⟨v0, hv0, hpl0⟩ := mapLines_getElem? harr hi0
    have hv0eq : v0 = jsTrim l0 := by
      by_cases hlen : 1 < (jsTrim l0).length
      · rw [perLine_reindent hlen (Nat.le_of_eq hl0ind.symm)] at hpl0
        injection hpl0 with h
        rw [← h, hl0ind, Nat.sub_self]
        rfl
      · rw [perLine_of_short (by omega)] at hpl0
        injection hpl0 with h
        exact h.symm
    refine ⟨i0, v0, hv0, ?_, ?_, ?_⟩
    · rw [hv0eq]; exact hl0ne
    · rw [hv0eq, jsTrim_idem]; exact hl0ne
    · rw [hv0eq]
      exact indent_of_head_not_ws (fun c hc => jsTrim_head?_not_ws hc)

/-- If every line of the input is blank, `trimLines` returns the empty
string, whatever the configuration. -/
theorem trimLines_of_all_blank {s : List Char} {cfg : TrimConfig}
    (hblank : ∀ l ∈ splitNl s, jsTrim l = []) :
    trimLines s cfg = some [] := by
  obtain ⟨arr, harr, hrest⟩ := trimLines_run s cfg
  have hallb : ∀ v ∈ arr, v = [] := by
    intro v hv
    obtain ⟨l, hl, hpl⟩ := mapLines_mem harr v hv
    exact (perLine_blank_iff hpl).mpr (hblank l hl)
  rcases hrest with ⟨_, hout⟩ | ⟨f, lastI, _, _, _, hoccf, _, _, _, _⟩
  · exact hout
  · obtain ⟨v, hv, hvne⟩ := hoccf
    exact absurd (hallb v (mem_of_getElem?' hv)) hvne

/-! ## The claims -/

/-- C2: `trimLines` is total — for every input string and every resolved
configuration it returns a string (never `none`, i.e. never raises); in
particular the `' '.repeat(totalIndent)` in the re-indentation branch is
always applied to a non-negative count. -/
theorem trimLines_never_fails (s : List Char) (cfg : TrimConfig) :
    ∃ out, trimLines s cfg = some out :=
  trimLines_total s cfg

/-- C1: for every input consisting entirely of whitespace characters (which
includes newlines), and every configuration with each of the three options
present or omitted, `trimLines` returns the empty string. -/
theorem trimLines_all_ws_empty (s : List Char) (h : ∀ c ∈ s, isWS c = true)
    (opts : Option TrimLinesOpts) :
    trimLines s (resolveConfig opts) = some [] :=
  trimLines_of_all_blank (fun _ hl =>
    jsTrim_eq_nil_iff.mpr (fun c hc => h c (mem_of_mem_splitNl hl hc)))

theorem trimLines_all_ws_empty_witness :
    trimLines [' ', '\n', '\t'] (resolveConfig none) = some [] :=
  trimLines_all_ws_empty [' ', '\n', '\t'] (by decide) none

/-- C6: a line whose trimmed content has length ≤ 1 is exempt from
re-indentation — its post-trim value is exactly its trimmed content — and in
particular `trimLines("    x", {trimLeftToLeastIndent: true})` is `"x"`. -/
theorem short_line_exempt :
    (∀ (tL : Bool) (li : Option Nat) (l : List Char),
        (jsTrim l).length ≤ 1 → perLine tL li l = some (jsTrim l)) ∧
    trimLinesS "    x" (some ⟨some true, none, none⟩) = some "x" :=
  ⟨fun _ _ _ h => perLine_of_short h, by rfl⟩

theorem short_line_exempt_witness :
    perLine true (some 4) ['x'] = some (jsTrim ['x']) :=
  short_line_exempt.1 true (some 4) ['x'] (by decide)

/-- C8: whenever a line is re-indented (`trimLeftToLeastIndent` on, least
indent defined, trimmed length > 1), the re-added prefix consists
exclusively of space characters, of length equal to the line's original
leading-whitespace run length minus the least indent — whatever whitespace
characters (e.g. tabs) made up the original indentation. -/
theorem reindent_prefix_spaces {lines : List (List Char)} {l : List Char} {m : Nat}
    (hl : l ∈ lines) (hm : leastIndent lines = some m)
    (hlen : 1 < (jsTrim l).length) :
    perLine true (some m) l =
      some (List.replicate (getStringLeftIndentLength l - m) ' ' ++ jsTrim l) ∧
    ∀ c ∈ List.replicate (getStringLeftIndentLength l - m) ' ', c = ' ' := by
  have hne : jsTrim l ≠ [] := fun hh => by rw [hh] at hlen; simp at hlen
  exact ⟨perLine_reindent hlen (leastIndent_lb hm l hl hne),
    fun c hc => List.eq_of_mem_replicate hc⟩

theorem reindent_prefix_spaces_witness :
    (perLine true (some 0) ['\t', '\t', 'a', 'b'] =
      some (List.replicate (getStringLeftIndentLength ['\t', '\t', 'a', 'b'] - 0) ' '
        ++ jsTrim ['\t', '\t', 'a', 'b']) ∧
    ∀ c ∈ List.replicate (getStringLeftIndentLength ['\t', '\t', 'a', 'b'] - 0) ' ',
      c = ' ') :=
  @reindent_prefix_spaces [['\t', '\t', 'a', 'b'], ['x', 'y']]
    ['\t', '\t', 'a', 'b'] 0 (by decide) (by decide) (by decide)

/-- C10: every line of the output carries no trailing whitespace, and an
input line consisting entirely of whitespace is mapped to the empty
string by the per-line pass. -/
theorem output_no_trailing_ws :
    (∀ (s : List Char) (cfg : TrimConfig) (out : List Char),
        trimLines s cfg = some out →
        ∀ line ∈ splitNl out, ∀ c, line.getLast? = some c → isWS c = false) ∧
    (∀ (tL : Bool) (li : Option Nat) (l : List Char),
        (∀ c ∈ l, isWS c = true) → perLine tL li l = some []) := by
  constructor
  · intro s cfg out hout line hline c hc
    obtain ⟨arr, harr, hrest⟩ := trimLines_run s cfg
    rcases hrest with ⟨hall, hrun⟩ |
      ⟨f, lastI, hocc, hfl, hlen, hoccf, hoccl, hbf, hbl, hrun⟩
    · rw [hout] at hrun
      injection hrun with hrun
      rw [hrun] at hline
      have hnil : splitNl ([] : List Char) = [[]] := rfl
      rw [hnil] at hline
      rw [List.mem_singleton.mp hline] at hc
      simp at hc
    · rw [hout] at hrun
      injection hrun with hrun
      obtain ⟨hne, hsub, hkeep⟩ := resultArr_facts rfl hfl hlen
      have hnlarr : ∀ v ∈ arr, '\n' ∉ v := fun v hv => by
        obtain ⟨l, hl, hpl⟩ := mapLines_mem harr v hv
        exact perLine_no_nl hpl (not_nl_mem_of_mem_splitNl hl)
      have hsplit := splitNl_joinNl
        (fun v hv => hnlarr v (resultArr_mem_arr rfl v hv)) hne
      rw [hrun, hsplit] at hline
      obtain ⟨l, _, hpl⟩ := mapLines_mem harr line (resultArr_mem_arr rfl line hline)
      exact canonLine_getLast_not_ws (canon_of_perLine hpl) hc
  · intro tL li l h
    exact perLine_of_blank (jsTrim_eq_nil_iff.mpr h)

theorem output_no_trailing_ws_witness :
    perLine true none [' ', '\t'] = some [] :=
  output_no_trailing_ws.2 true none [' ', '\t'] (by decide)

theorem if_true_id {α : Type} (a b : α) : (if true = true then a else b) = a := rfl

theorem if_false_id {α : Type} (a b : α) : (if false = true then a else b) = b := rfl

/-- C4 (counterexample): the all-blank input `"\n"` with both vertical-trim
options disabled yields `""` (the all-blank short-circuit), which has 1 line,
while the input has 2 lines — so the line count is not preserved. -/
theorem lineCount_preserved_cex :
    trimLines ['\n'] ⟨true, false, false⟩ = some [] ∧
    (splitNl ([] : List Char)).length = 1 ∧ (splitNl ['\n']).length = 2 :=
  ⟨by rfl, by rfl, by rfl⟩

/-- C4 (amended): with both vertical-trim options disabled, and provided the
input contains at least one non-blank line (so the all-blank short-circuit
to `""` does not fire), the output has exactly as many lines as the input. -/
theorem lineCount_preserved_noVertical {s : List Char} {cfg : TrimConfig}
    {out : List Char}
    (hvs : cfg.trimVerticalStart = false) (hve : cfg.trimVerticalEnd = false)
    (hnb : ∃ l ∈ splitNl s, jsTrim l ≠ [])
    (hout : trimLines s cfg = some out) :
    (splitNl out).length = (splitNl s).length := by
  obtain ⟨arr, harr, hrest⟩ := trimLines_run s cfg
  rcases hrest with ⟨hall, hrun⟩ |
    ⟨f, lastI, hocc, hfl, hlen, hoccf, hoccl, hbf, hbl, hrun⟩
  · obtain ⟨l, hl, hne⟩ := hnb
    obtain ⟨i, hi⟩ := List.getElem?_of_mem hl
    obtain ⟨v, hv, hpl⟩ := mapLines_getElem? harr hi
    exact absurd ((perLine_blank_iff hpl).mp (hall v (mem_of_getElem?' hv))) hne
  · rw [hout] at hrun
    injection hrun with hrun
    rw [hvs, hve, Bool.and_false, if_false_id, if_false_id, if_false_id] at hrun
    have hnlarr : ∀ v ∈ arr, '\n' ∉ v := fun v hv => by
      obtain ⟨l, hl, hpl⟩ := mapLines_mem harr v hv
      exact perLine_no_nl hpl (not_nl_mem_of_mem_splitNl hl)
    have harrne : arr ≠ [] := fun hn => by rw [hn] at hlen; simp at hlen
    rw [hrun, splitNl_joinNl hnlarr harrne, mapLines_length harr]

theorem lineCount_preserved_noVertical_witness :
    (splitNl ['a', '\n', 'b']).length = (splitNl [' ', 'a', '\n', 'b']).length :=
  @lineCount_preserved_noVertical [' ', 'a', '\n', 'b'] ⟨true, false, false⟩
    ['a', '\n', 'b'] rfl rfl (by decide) (by rfl)

/-- C7: with `trimLeftToLeastIndent` disabled, every non-blank output line
equals the corresponding input line (at a fixed index offset `d`) with all
leading and trailing whitespace removed. -/
theorem disabled_reindent_lines_trimmed {s : List Char} {cfg : TrimConfig}
    {out : List Char}
    (htL : cfg.trimLeftToLeastIndent = false)
    (hout : trimLines s cfg = some out) :
    ∃ d : Nat, ∀ (j : Nat) (line : List Char),
      (splitNl out)[j]? = some line → jsTrim line ≠ [] →
      ∃ src : List Char, (splitNl s)[j + d]? = some src ∧ line = jsTrim src := by
  obtain ⟨arr, harr, hrest⟩ := trimLines_run s cfg
  rw [htL, if_false_id] at harr
  rcases hrest with ⟨hall, hrun⟩ |
    ⟨f, lastI, hocc, hfl, hlen, hoccf, hoccl, hbf, hbl, hrun⟩
  · rw [hout] at hrun
    injection hrun with hrun
    refine ⟨0, ?_⟩
    intro j line hj hne
    rw [hrun] at hj
    have hnil : splitNl ([] : List Char) = [[]] := rfl
    rw [hnil] at hj
    cases j with
    | zero =>
      rw [List.getElem?_cons_zero] at hj
      injection hj with hj
      rw [← hj] at hne
      exact absurd rfl hne
    | succ j => simp at hj
  · rw [hout] at hrun
    injection hrun with hrun
    obtain ⟨hne, hsub, hkeep⟩ := resultArr_facts rfl hfl hlen
    have hnlarr : ∀ v ∈ arr, '\n' ∉ v := fun v hv => by
      obtain ⟨l, hl, hpl⟩ := mapLines_mem harr v hv
      exact perLine_no_nl hpl (not_nl_mem_of_mem_splitNl hl)
    have hsplit := splitNl_joinNl
      (fun v hv => hnlarr v (resultArr_mem_arr rfl v hv)) hne
    refine ⟨sliceOffset cfg f, ?_⟩
    intro j line hj _
    rw [hrun, hsplit] at hj
    have hjarr := hsub j line hj
    have hlt : sliceOffset cfg f + j < (splitNl s).length := by
      obtain ⟨hlt, _⟩ := List.getElem?_eq_some_iff.mp hjarr
      rw [← mapLines_length harr]
      exact hlt
    rcases hsome : (splitNl s)[sliceOffset cfg f + j]? with _ | src
    · rw [List.getElem?_eq_none_iff] at hsome
      omega
    · obtain ⟨v, hv, hpl⟩ := mapLines_getElem? harr hsome
      have hveq : v = line := by
        rw [hv] at hjarr
        injection hjarr
      rw [perLine_not_tL] at hpl
      injection hpl with hpl
      refine ⟨src, ?_, ?_⟩
      · rw [Nat.add_comm]
        exact hsome
      · rw [hpl, hveq]

theorem disabled_reindent_lines_trimmed_witness :
    ∃ d : Nat, ∀ (j : Nat) (line : List Char),
      (splitNl ['a', '\n', 'b'])[j]? = some line → jsTrim line ≠ [] →
      ∃ src : List Char,
        (splitNl ['\n', ' ', 'a', ' ', '\n', ' ', 'b'])[j + d]? = some src ∧
        line = jsTrim src :=
  @disabled_reindent_lines_trimmed ['\n', ' ', 'a', ' ', '\n', ' ', 'b']
    ⟨false, true, true⟩ ['a', '\n', 'b'] rfl (by rfl)

/-- C3: with `trimLeftToLeastIndent` enabled, if the output contains at
least one non-blank line, the minimum leading-whitespace run length across
the non-blank lines of the output is exactly 0. -/
theorem min_output_indent_zero {s : List Char} {cfg : TrimConfig} {out : List Char}
    (htL : cfg.trimLeftToLeastIndent = true)
    (hout : trimLines s cfg = some out)
    (hnb : ∃ line ∈ splitNl out, jsTrim line ≠ []) :
    natMin? (((splitNl out).filter (fun line => !(jsTrim line).isEmpty)).map
      getStringLeftIndentLength) = some 0 := by
  obtain ⟨arr, harr, hrest⟩ := trimLines_run s cfg
  rw [htL, if_true_id] at harr
  rcases hrest with ⟨hall, hrun⟩ |
    ⟨f, lastI, hocc, hfl, hlen, hoccf, hoccl, hbf, hbl, hrun⟩
  · rw [hout] at hrun
    injection hrun with hrun
    obtain ⟨line, hline, hnbl⟩ := hnb
    rw [hrun] at hline
    have hnil : splitNl ([] : List Char) = [[]] := rfl
    rw [hnil] at hline
    rw [List.mem_singleton.mp hline] at hnbl
    exact absurd rfl hnbl
  · rw [hout] at hrun
    injection hrun with hrun
    obtain ⟨hne, hsub, hkeep⟩ := resultArr_facts rfl hfl hlen
    have hnlarr : ∀ v ∈ arr, '\n' ∉ v := fun v hv => by
      obtain ⟨l, hl, hpl⟩ := mapLines_mem harr v hv
      exact perLine_no_nl hpl (not_nl_mem_of_mem_splitNl hl)
    have hsplit := splitNl_joinNl
      (fun v hv => hnlarr v (resultArr_mem_arr rfl v hv)) hne
    obtain ⟨i, v, hiv, hvne, hvtne, hvind⟩ := exists_zero_indent_entry harr hoccf
    have hioc : occAt arr i := ⟨v, hiv, hvne⟩
    have hilen : i < arr.length := (List.getElem?_eq_some_iff.mp hiv).1
    have hif : f ≤ i := by
      by_contra hc
      exact occAt_not_blankAt hioc (hbf i (by omega))
    have hil : i ≤ lastI := by
      by_contra hc
      exact occAt_not_blankAt hioc (hbl i (by omega) hilen)
    have hres := hkeep i hif hil
    rw [hiv] at hres
    have hvmem : v ∈ splitNl out := by
      rw [hrun, hsplit]
      exact mem_of_getElem?' hres
    apply natMin?_eq_zero_of_mem
    refine List.mem_map.mpr ⟨v, ?_, hvind⟩
    rw [List.mem_filter]
    refine ⟨hvmem, ?_⟩
    cases hjt : jsTrim v with
    | nil => exact absurd hjt hvtne
    | cons a b => simp [hjt]

theorem min_output_indent_zero_witness :
    natMin? (((splitNl ['a', 'b']).filter (fun line => !(jsTrim line).isEmpty)).map
      getStringLeftIndentLength) = some 0 :=
  @min_output_indent_zero [' ', ' ', 'a', 'b'] ⟨true, true, true⟩ ['a', 'b']
    rfl (by rfl) (by decide)

/-- C9: the spec's worked example — leading and trailing blocks of blank
lines removed, the interior blank line retained, and the least indent of 2
stripped from both occupied lines. -/
theorem default_example_foo_bar :
    trimLinesS "\n\n  foo\n\n  bar\n\n\n" none = some "foo\n\nbar" := by
  rfl

/-- Idempotence for any configuration with all three options enabled. -/
theorem trimLines_idem_core {s out : List Char} {cfg : TrimConfig}
    (h1 : cfg.trimLeftToLeastIndent = true) (h2 : cfg.trimVerticalStart = true)
    (h3 : cfg.trimVerticalEnd = true)
    (hout : trimLines s cfg = some out) :
    trimLines out cfg = some out := by
  obtain ⟨arr, harr, hrest⟩ := trimLines_run s cfg
  rw [h1, if_true_id] at harr
  rcases hrest with ⟨hall, hrun⟩ |
    ⟨f, lastI, hocc, hfl, hlen, hoccf, hoccl, hbf, hbl, hrun⟩
  · rw [hout] at hrun
    injection hrun with hrun
    rw [hrun]
    apply trimLines_of_all_blank
    intro l hl
    have hnil : splitNl ([] : List Char) = [[]] := rfl
    rw [hnil] at hl
    rw [List.mem_singleton.mp hl]
    rfl
  · rw [hout] at hrun
    injection hrun with hrun
    rw [h2, h3, Bool.and_self, if_true_id] at hrun
    -- `out` is the slice of the mapped array between the occupied markers.
    have hnlarr : ∀ v ∈ arr, '\n' ∉ v := fun v hv => by
      obtain ⟨l, hl, hpl⟩ := mapLines_mem harr v hv
      exact perLine_no_nl hpl (not_nl_mem_of_mem_splitNl hl)
    have hlenres : ((arr.take (lastI + 1)).drop f).length = lastI + 1 - f := by
      rw [List.length_drop, List.length_take]
      omega
    have hresne : (arr.take (lastI + 1)).drop f ≠ [] := by
      intro hn
      have hzero := congrArg List.length hn
      rw [hlenres] at hzero
      simp at hzero
      omega
    have hressub : ∀ v ∈ (arr.take (lastI + 1)).drop f, v ∈ arr := fun v hv =>
      List.mem_of_mem_take (List.mem_of_mem_drop hv)
    have hsplit : splitNl out = (arr.take (lastI + 1)).drop f := by
      rw [hrun]
      exact splitNl_joinNl (fun v hv => hnlarr v (hressub v hv)) hresne
    have hres0 : ((arr.take (lastI + 1)).drop f)[0]? = arr[f]? := by
      rw [List.getElem?_drop]
      exact List.getElem?_take_of_lt (by omega)
    have hreslast : ((arr.take (lastI + 1)).drop f)[lastI - f]? = arr[lastI]? := by
      rw [List.getElem?_drop]
      have harith : f + (lastI - f) = lastI := by omega
      rw [harith]
      exact List.getElem?_take_of_lt (by omega)
    have hoccres0 : occAt ((arr.take (lastI + 1)).drop f) 0 := by
      obtain ⟨v, hv, hvne⟩ := hoccf
      exact ⟨v, by rw [hres0]; exact hv, hvne⟩
    have hoccresL : occAt ((arr.take (lastI + 1)).drop f) (lastI - f) := by
      obtain ⟨v, hv, hvne⟩ := hoccl
      exact ⟨v, by rw [hreslast]; exact hv, hvne⟩
    -- A zero-indent non-blank entry survives into the slice, so the second
    -- pass computes least indent 0.
    obtain ⟨i, v0, hiv, hv0ne, hv0tne, hv0ind⟩ := exists_zero_indent_entry harr hoccf
    have hioc : occAt arr i := ⟨v0, hiv, hv0ne⟩
    have hilen : i < arr.length := (List.getElem?_eq_some_iff.mp hiv).1
    have hif : f ≤ i := by
      by_contra hc
      exact occAt_not_blankAt hioc (hbf i (by omega))
    have hil : i ≤ lastI := by
      by_contra hc
      exact occAt_not_blankAt hioc (hbl i (by omega) hilen)
    have hv0res : v0 ∈ (arr.take (lastI + 1)).drop f := by
      have hgi : ((arr.take (lastI + 1)).drop f)[i - f]? = arr[i]? := by
        rw [List.getElem?_drop]
        have harith : f + (i - f) = i := by omega
        rw [harith]
        exact List.getElem?_take_of_lt (by omega)
      rw [hiv] at hgi
      exact mem_of_getElem?' hgi
    have hli2 : leastIndent ((arr.take (lastI + 1)).drop f) = some 0 :=
      leastIndent_eq_zero ⟨v0, hv0res, hv0tne, hv0ind⟩
    -- Every line of the slice is canonical, so the second per-line pass is
    -- the identity.
    have hmap2 : mapLines true (some 0) ((arr.take (lastI + 1)).drop f)
        = some ((arr.take (lastI + 1)).drop f) := by
      apply mapLines_fix
      intro v hv
      obtain ⟨l, hl, hpl⟩ := mapLines_mem harr v (hressub v hv)
      exact perLine_canon_fix (canon_of_perLine hpl)
    -- The slice starts and ends with occupied lines, so the second vertical
    -- trim keeps everything.
    rcases occupiedIdxs_spec ((arr.take (lastI + 1)).drop f) with
      ⟨ho2, hall2⟩ | ⟨f2, l2, ho2, hfl2, hlen2, hoccf2, hoccl2, hbf2, hbl2⟩
    · obtain ⟨v, hv, hvne⟩ := hoccres0
      exact absurd (hall2 v (mem_of_getElem?' hv)) hvne
    · have hf2 : f2 = 0 := by
        by_contra hc
        exact occAt_not_blankAt hoccres0 (hbf2 0 (by omega))
      have hlb : lastI - f < ((arr.take (lastI + 1)).drop f).length := by
        rw [hlenres]
        omega
      have hl2 : l2 = lastI - f := by
        by_contra hc
        rw [hlenres] at hlen2
        exact occAt_not_blankAt hoccresL (hbl2 (lastI - f) (by omega) hlb)
      unfold trimLines
      simp only [hsplit, h1, h2, h3, Bool.and_self, if_true_id,
        eq_self_iff_true, if_true, hli2, hmap2, ho2, hf2, hl2, List.drop_zero]
      have harith : lastI - f + 1 = lastI + 1 - f := by omega
      rw [harith, ← hlenres, List.take_length]
      exact congrArg some hrun.symm

/-- C5: under the default configuration (all three options true, i.e. the
`config` argument omitted), `trimLines` is idempotent. -/
theorem trimLines_idempotent {s out : List Char}
    (hout : trimLines s (resolveConfig none) = some out) :
    trimLines out (resolveConfig none) = some out :=
  trimLines_idem_core rfl rfl rfl hout

theorem trimLines_idempotent_witness :
    trimLines ['a'] (resolveConfig none) = some ['a'] :=
  trimLines_idempotent (s := [' ', 'a']) (by rfl)

end TrimLines
